import Mathlib

/-!
Verification development for the lab8 discrete-event queueing simulator:
the event queue (`event_queue.py`), the random-variate generator
(`random_generator.py`), the simulation engine (`simulation_engine.py`)
and the analytic reference (`validation.py`).

Times and statistics are modelled as exact rationals (`ℚ`); the Python
floats compute the same field expressions, so every identity proved here
is the exact-arithmetic content of the code.  The variate formulas that
need `log`/`sqrt` are modelled over `ℝ`.

Loops whose iteration count is data dependent (the CPython sift loops and
the engine's event loop) are written with an explicit fuel argument so
that every definition stays structurally recursive and kernel-computable;
the fuel chosen at each call site provably dominates the loop's measure,
so the fuelled function computes exactly the Python loop.
-/

set_option maxRecDepth 10000

namespace Lab8

/-- `config.EventType`: the two event kinds of the simulator. -/
inductive EventType where
  | ARRIVAL
  | END_SERVICE
deriving DecidableEq, Repr

/-- `event_queue.Event`.  The dataclass has `order=True` with every field
except `time` marked `compare=False`, so `e1 < e2` is `e1.time < e2.time`. -/
structure Event where
  time : ℚ
  event_type : EventType
  request_id : ℕ
  channel_id : Option ℕ := none
deriving DecidableEq, Repr

/-- Placeholder used for out-of-range list reads; all reads below are
in range, so its value never matters. -/
def dummyEvent : Event := ⟨0, EventType.ARRIVAL, 0, none⟩

/-- Loop body of `heapq._siftdown(heap, startpos, pos)` with `startpos = 0`
(the only value this program uses): bubble `newitem` toward the root,
moving parents down while `newitem < parent`.  Each iteration strictly
decreases `pos`, so `fuel = pos` runs the loop to completion; when the
fuel is spent `pos = 0` and the two base cases agree. -/
def siftdownGo (newitem : Event) : ℕ → List Event → ℕ → List Event
  | 0, heap, pos => heap.set pos newitem
  | fuel + 1, heap, pos =>
    if 0 < pos then
      let parentpos := (pos - 1) / 2
      let parent := heap.getD parentpos dummyEvent
      if newitem.time < parent.time then
        siftdownGo newitem fuel (heap.set pos parent) parentpos
      else heap.set pos newitem
    else heap.set pos newitem

/-- `heapq._siftdown(heap, 0, pos)`.  In CPython `newitem` is read from
`heap[pos]` before the walk; it is passed explicitly here. -/
def siftdownAux (newitem : Event) (heap : List Event) (pos : ℕ) : List Event :=
  siftdownGo newitem pos heap pos

/-- `heapq.heappush`: append the item and sift it down toward the root. -/
def heappush (heap : List Event) (item : Event) : List Event :=
  siftdownAux item (heap ++ [item]) heap.length

/-- Loop body of `heapq._siftup(heap, pos)`: move the smaller child up
until reaching a leaf (CPython picks the right child when the left one is
not strictly smaller), place `newitem` at the leaf, then `_siftdown`.
Each iteration strictly increases `pos` below `heap.length`, so
`fuel = heap.length - pos` runs the loop to completion; when the fuel is
spent `pos` is already a leaf and the base cases agree. -/
def siftupGo (newitem : Event) : ℕ → List Event → ℕ → List Event
  | 0, heap, pos => siftdownAux newitem (heap.set pos newitem) pos
  | fuel + 1, heap, pos =>
    if 2 * pos + 1 < heap.length then
      let childpos := 2 * pos + 1
      let rightpos := childpos + 1
      let cpos :=
        if rightpos < heap.length ∧
            ¬ (heap.getD childpos dummyEvent).time < (heap.getD rightpos dummyEvent).time
        then rightpos else childpos
      siftupGo newitem fuel (heap.set pos (heap.getD cpos dummyEvent)) cpos
    else siftdownAux newitem (heap.set pos newitem) pos

/-- `heapq._siftup(heap, pos)`. -/
def siftupAux (newitem : Event) (heap : List Event) (pos : ℕ) : List Event :=
  siftupGo newitem heap.length heap pos

/-- `heapq.heappop` as used by `EventQueue.pop`: remove the last element;
if the heap is now empty it is the answer, otherwise it replaces the root
(the answer) and `_siftup` restores the invariant.  `none` models the
`IndexError` raised on an empty queue. -/
def heappop (heap : List Event) : Option (Event × List Event) :=
  match heap.getLast? with
  | none => none
  | some lastelt =>
    match heap.dropLast with
    | [] => some (lastelt, [])
    | r0 :: rtail => some (r0, siftupAux lastelt (lastelt :: rtail) 0)

/-- Pop events one by one (at most `fuel` of them); each `heappop` removes
one element, so `fuel = heap.length` drains the queue. -/
def popAllFuel : ℕ → List Event → List Event
  | 0, _ => []
  | fuel + 1, heap =>
    match heappop heap with
    | none => []
    | some (e, rest) => e :: popAllFuel fuel rest

/-- The extraction order of `EventQueue`: push the given events in order
into an empty queue, then pop until empty. -/
def popsOf (pushes : List Event) : List Event :=
  popAllFuel pushes.length (pushes.foldl heappush [])

/-- Claim C6 as stated: pops come out in non-decreasing `time` order, and
among events with exactly equal `time` the one pushed earlier is popped
earlier (FIFO among ties). -/
def fifoClaim (pushes : List Event) : Prop :=
  ((popsOf pushes).Pairwise fun a b => a.time ≤ b.time) ∧
  ∀ i < pushes.length, ∀ j < pushes.length, i < j →
    (pushes.getD i dummyEvent).time = (pushes.getD j dummyEvent).time →
    (popsOf pushes).indexOf (pushes.getD i dummyEvent) <
      (popsOf pushes).indexOf (pushes.getD j dummyEvent)

instance (pushes : List Event) : Decidable (fifoClaim pushes) := by
  unfold fifoClaim
  infer_instance

/-- Four pairwise distinct events with identical times, pushed in id order. -/
def cexEvent (k : ℕ) : Event := ⟨0, EventType.ARRIVAL, k, none⟩

/-- The push sequence refuting FIFO-among-ties. -/
def cexPushes : List Event := [cexEvent 0, cexEvent 1, cexEvent 2, cexEvent 3]

/-- Time of the event stored at index `i`. -/
def eT (l : List Event) (i : ℕ) : ℚ := (l.getD i dummyEvent).time

/-- The CPython binary-heap invariant: every element is `≤` its children,
stated via parents (`parent j = (j - 1) / 2`). -/
def IsMinHeap (l : List Event) : Prop :=
  ∀ j, 0 < j → j < l.length → eT l ((j - 1) / 2) ≤ eT l j

/-! ## The simulation engine (`simulation_engine.py`) -/

/-- `simulation_engine.Request`: one customer.  `None` fields are `Option`. -/
structure Request where
  request_id : ℕ
  arrival_time : ℚ
  service_duration : ℚ
  service_start_time : Option ℚ := none
  service_end_time : Option ℚ := none
  queue_entry_time : Option ℚ := none
  queue_exit_time : Option ℚ := none
  was_rejected : Bool := false
deriving DecidableEq, Repr

/-- `Request.get_wait_time`: `service_start_time - queue_entry_time`,
or `0.0` when either is `None`. -/
def Request.get_wait_time (r : Request) : ℚ :=
  match r.service_start_time, r.queue_entry_time with
  | some s, some q => s - q
  | _, _ => 0

/-- `Request.get_system_time`: `service_end_time - arrival_time`,
or `0.0` when service has not finished. -/
def Request.get_system_time (r : Request) : ℚ :=
  match r.service_end_time with
  | some e => e - r.arrival_time
  | none => 0

/-- `Request.get_queue_time`: `queue_exit_time - queue_entry_time`,
or `0.0` when either is `None`. -/
def Request.get_queue_time (r : Request) : ℚ :=
  match r.queue_entry_time, r.queue_exit_time with
  | some q, some x => x - q
  | _, _ => 0

/-- Placeholder for out-of-range request reads (never hit by the engine,
whose channel/queue entries always index the request store). -/
def dummyRequest : Request := { request_id := 0, arrival_time := 0, service_duration := 0 }

/-- The constructor arguments of `SimulationEngine` that the claims range
over: channel count and queue capacity (`None` = unbounded). -/
structure EngineParams where
  n_channels : ℕ
  m_queue : Option ℕ
deriving DecidableEq, Repr

/-- The mutable state of one realization.  Python stores `Request` objects
by reference in `channels`/`queue`/`all_requests`; here the single store is
`requests` (identical to `all_requests`: requests are appended in id order,
so request `i` sits at index `i`) and `channels`/`queue` hold request ids.
`visited` is specification instrumentation, not a source field: it records
`0` (the initial level) followed by the occupancy level reached after each
processed event, i.e. exactly the levels the system held during the run. -/
structure SimState where
  channels : List (Option ℕ)
  queue : List ℕ
  current_time : ℚ
  state_history : List (ℕ × ℚ)
  heap : List Event
  request_counter : ℕ
  requests : List Request
  rngIdx : ℕ
  visited : List ℕ
deriving DecidableEq, Repr

/-- Python `dict` lookup on the insertion-ordered pair list. -/
def histGet (h : List (ℕ × ℚ)) (k : ℕ) : Option ℚ :=
  (h.find? fun kv => kv.1 == k).map Prod.snd

/-- The engine's histogram update
`if s not in hist: hist[s] = 0.0` followed by `hist[s] += d`:
update in place when the key exists, else append it. -/
def histAdd (h : List (ℕ × ℚ)) (k : ℕ) (d : ℚ) : List (ℕ × ℚ) :=
  match h with
  | [] => [(k, d)]
  | (k0, v0) :: t => if k0 = k then (k0, v0 + d) :: t else (k0, v0) :: histAdd t k d

/-- Keys of the histogram, in insertion order. -/
def histKeys (h : List (ℕ × ℚ)) : List ℕ := h.map Prod.fst

/-- Sum of the histogram's values (the total accumulated occupancy time). -/
def histValuesSum (h : List (ℕ × ℚ)) : ℚ := (h.map Prod.snd).sum

/-- `QueueSystem.get_busy_channels`. -/
def getBusyChannels (st : SimState) : ℕ := (st.channels.filter Option.isSome).length

/-- `QueueSystem.get_state`: busy channels plus queue length. -/
def getState (st : SimState) : ℕ := getBusyChannels st + st.queue.length

/-- `QueueSystem.get_free_channel_id`: index of the first free channel. -/
def getFreeChannelId (st : SimState) : Option ℕ := st.channels.findIdx? Option.isNone

/-- `QueueSystem.is_queue_full`: never full when `m_queue is None`. -/
def isQueueFull (p : EngineParams) (st : SimState) : Bool :=
  match p.m_queue with
  | none => false
  | some m => m ≤ st.queue.length

/-- `SimulationEngine._schedule_arrival(time)`: draw the next inter-arrival
duration and push an `ARRIVAL` at `time + interval` carrying the current
`request_counter`.  `draws` is the sequence of durations produced by the
successive `_generate_*` calls (each delegates to `RandomGenerator` over
the globally seeded uniform stream; the engine claims hold for every such
sequence, so the variate pipeline is abstracted as this oracle, consumed
one value per generate call as in the exponential default). -/
def scheduleArrival (draws : ℕ → ℚ) (st : SimState) (t : ℚ) : SimState :=
  let interval := draws st.rngIdx
  { st with
    rngIdx := st.rngIdx + 1,
    heap := heappush st.heap ⟨t + interval, EventType.ARRIVAL, st.request_counter, none⟩ }

/-- `SimulationEngine._schedule_service_end`. -/
def scheduleServiceEnd (st : SimState) (t : ℚ) (rid cid : ℕ) (service : ℚ) : SimState :=
  { st with heap := heappush st.heap ⟨t + service, EventType.END_SERVICE, rid, some cid⟩ }

/-- `SimulationEngine._handle_arrival(time)`: bump the counter, draw the
service duration, then either start service on a free channel (scheduling
its `END_SERVICE`), enqueue, or reject; always append the request to
`all_requests` and schedule the next arrival.  Python mutates the shared
`Request` object before appending it; here the final record is built in
the branch and appended once, which yields the same store. -/
def handleArrival (draws : ℕ → ℚ) (p : EngineParams) (t : ℚ) (st : SimState) : SimState :=
  let st := { st with current_time := t }
  let service := draws st.rngIdx
  let st := { st with request_counter := st.request_counter + 1, rngIdx := st.rngIdx + 1 }
  let rid := st.request_counter - 1
  let req : Request := { request_id := rid, arrival_time := t, service_duration := service }
  match getFreeChannelId st with
  | some cid =>
    let req := { req with service_start_time := some t, queue_exit_time := some t }
    let st := { st with
      channels := st.channels.set cid (some rid),
      requests := st.requests ++ [req] }
    scheduleArrival draws (scheduleServiceEnd st t rid cid service) t
  | none =>
    if isQueueFull p st then
      scheduleArrival draws { st with requests := st.requests ++ [{ req with was_rejected := true }] } t
    else
      scheduleArrival draws
        { st with
          queue := st.queue ++ [rid],
          requests := st.requests ++ [{ req with queue_entry_time := some t }] } t

/-- `SimulationEngine._handle_service_end(time, request_id, channel_id)`:
finish the request in `channel_id` (stamping `service_end_time`), free the
channel, and if the waiting line is non-empty start serving its head
(stamping `queue_exit_time`/`service_start_time`) and schedule its end.
`none` models the crash Python would raise on an empty channel. -/
def handleServiceEnd (t : ℚ) (cid : ℕ) (st : SimState) : Option SimState :=
  let st := { st with current_time := t }
  match st.channels.getD cid none with
  | none => none
  | some rid =>
    let st := { st with
      requests := st.requests.set rid
        { st.requests.getD rid dummyRequest with service_end_time := some t },
      channels := st.channels.set cid none }
    match st.queue with
    | [] => some st
    | nid :: qrest =>
      let r := { st.requests.getD nid dummyRequest with
        queue_exit_time := some t, service_start_time := some t }
      let st := { st with
        queue := qrest,
        requests := st.requests.set nid r,
        channels := st.channels.set cid (some nid) }
      some (scheduleServiceEnd st t nid cid r.service_duration)

/-- The loop-carried locals of `run_single_realization` at loop exit. -/
structure LoopOut where
  st : SimState
  last_state : ℕ
  last_state_time : ℚ
deriving DecidableEq, Repr

/-- Event dispatch of the main loop: `_handle_arrival` for `ARRIVAL`,
`_handle_service_end(time, request_id, channel_id)` for `END_SERVICE`
(whose `channel_id` is always set by the engine; `none` models the crash
on a malformed event). -/
def dispatchEvent (draws : ℕ → ℚ) (p : EngineParams) (e : Event) (st : SimState) :
    Option SimState :=
  match e.event_type, e.channel_id with
  | EventType.ARRIVAL, _ => some (handleArrival draws p e.time st)
  | EventType.END_SERVICE, some cid => handleServiceEnd e.time cid st
  | EventType.END_SERVICE, none => none

/-- The main event loop of `run_single_realization`: pop the earliest
event; stop when the queue is empty or the event lies beyond `T`; else
record the time spent in the previous state, dispatch the handler, and
update `last_state`/`last_state_time`.  `none` models a run that does not
finish within `fuel` iterations (the Python loop has no iteration bound). -/
def runLoop (draws : ℕ → ℚ) (p : EngineParams) (T : ℚ) :
    ℕ → SimState → ℕ → ℚ → Option LoopOut
  | 0, _, _, _ => none
  | fuel + 1, st, lst, ltime =>
    match heappop st.heap with
    | none => some ⟨st, lst, ltime⟩
    | some (e, h2) =>
      if T < e.time then some ⟨{ st with heap := h2 }, lst, ltime⟩
      else
        let st1 := { st with
          heap := h2,
          state_history := histAdd st.state_history lst (e.time - ltime) }
        match dispatchEvent draws p e st1 with
        | none => none
        | some st2 =>
          let ns := getState st2
          runLoop draws p T fuel { st2 with visited := st2.visited ++ [ns] } ns e.time

/-- The statistics dictionary built by `_calculate_statistics(T)`,
plus ghost fields (`requests`, `state_history`, `visited`) exposing the
engine state the statistics were derived from. -/
structure EngineResult where
  T : ℚ
  N_arrivals : ℕ
  N_served : ℕ
  N_rejected : ℕ
  probabilities : List (ℕ × ℚ)
  lambda_avg : ℚ
  mu_avg : ℚ
  p_rejection : ℚ
  relative_throughput : ℚ
  absolute_throughput : ℚ
  avg_busy_channels : ℚ
  avg_queue_length : ℚ
  avg_wait_time : ℚ
  avg_system_time : ℚ
  service_times : List ℚ
  wait_times : List ℚ
  system_times : List ℚ
  requests : List Request
  state_history : List (ℕ × ℚ)
  visited : List ℕ
deriving DecidableEq, Repr, Inhabited

/-- `probabilities.get(i, 0)`. -/
def probGet (ps : List (ℕ × ℚ)) (k : ℕ) : ℚ := ((ps.find? fun kv => kv.1 == k).map Prod.snd).getD 0

/-- The engine's `wait_times` list: wait times of the non-rejected
requests whose wait is strictly positive (the source filters
`not r.was_rejected and r.get_wait_time() > 0`). -/
def waitTimesOf (rs : List Request) : List ℚ :=
  (rs.filter fun r => !r.was_rejected && decide (0 < r.get_wait_time)).map Request.get_wait_time

/-- The engine's `system_times` list: system times of all non-rejected
requests (0 for a request whose service never finished). -/
def systemTimesOf (rs : List Request) : List ℚ :=
  (rs.filter fun r => !r.was_rejected).map Request.get_system_time

/-- `SimulationEngine._calculate_statistics(T)`, field for field. -/
def calcStatistics (p : EngineParams) (T : ℚ) (st : SimState) : EngineResult :=
  let probabilities := st.state_history.map fun kv => (kv.1, kv.2 / T)
  let N := st.requests.length
  let served := (st.requests.filter fun r => !r.was_rejected).length
  let rejected := (st.requests.filter fun r => r.was_rejected).length
  let lambda_avg := if 0 < T then (N : ℚ) / T else 0
  let service_times := (st.requests.filter fun r => r.service_start_time.isSome).map
    fun r => r.service_duration
  let t_ob := if service_times.isEmpty then 0 else service_times.sum / service_times.length
  let mu_avg := if 0 < t_ob then 1 / t_ob else 0
  let p_rejection := if 0 < N then (rejected : ℚ) / N else 0
  let relative_throughput := 1 - p_rejection
  let wait_times := waitTimesOf st.requests
  let system_times := systemTimesOf st.requests
  { T := T
    N_arrivals := N
    N_served := served
    N_rejected := rejected
    probabilities := probabilities
    lambda_avg := lambda_avg
    mu_avg := mu_avg
    p_rejection := p_rejection
    relative_throughput := relative_throughput
    absolute_throughput := lambda_avg * relative_throughput
    avg_busy_channels :=
      ((List.range (p.n_channels + 1)).map fun (i : ℕ) => (i : ℚ) * probGet probabilities i).sum
    avg_queue_length :=
      ((List.range' (p.n_channels + 1) (probabilities.length - (p.n_channels + 1))).map
        fun (i : ℕ) => ((i : ℚ) - (p.n_channels : ℚ)) * probGet probabilities i).sum
    avg_wait_time := if wait_times.isEmpty then 0 else wait_times.sum / wait_times.length
    avg_system_time := if system_times.isEmpty then 0 else system_times.sum / system_times.length
    service_times := service_times
    wait_times := wait_times
    system_times := system_times
    requests := st.requests
    state_history := st.state_history
    visited := st.visited }

/-- `run_single_realization(T)`: fresh `QueueSystem` (with the histogram
pre-zeroed for every level in `range(n_channels + (m_queue or 0) + 1)`,
as `QueueSystem.__post_init__` does), fresh event queue, first arrival
scheduled from time `0.0`, the main loop, the post-loop addition of the
remaining time `T - last_state_time` when positive, and the statistics. -/
def runRealization (draws : ℕ → ℚ) (p : EngineParams) (T : ℚ) (fuel : ℕ) :
    Option EngineResult :=
  let st0 : SimState := {
    channels := List.replicate p.n_channels none,
    queue := [],
    current_time := 0,
    state_history := (List.range (p.n_channels + p.m_queue.getD 0 + 1)).map fun s => (s, 0),
    heap := [],
    request_counter := 0,
    requests := [],
    rngIdx := 0,
    visited := [0] }
  match runLoop draws p T fuel (scheduleArrival draws st0 0) 0 0 with
  | none => none
  | some out =>
    let stF :=
      if 0 < T - out.last_state_time then
        { out.st with
          state_history := histAdd out.st.state_history out.last_state (T - out.last_state_time) }
      else out.st
    some (calcStatistics p T stF)

/-- Modelled from the spec (the formula claim C8 states): the arithmetic
mean of `get_wait_time` over ALL non-rejected requests, zero waits
included (0 when there are none). -/
def specMeanWait (rs : List Request) : ℚ :=
  let ws := (rs.filter fun r => !r.was_rejected).map Request.get_wait_time
  if ws.isEmpty then 0 else ws.sum / ws.length

/-- Concrete duration oracle: arrival gap 1, service 10, arrival gap 1,
service 5, then an arrival gap of 100. -/
def drawsA : ℕ → ℚ := fun n => [(1 : ℚ), 10, 1, 5, 100].getD n 1000

/-- One channel, unbounded queue. -/
def paramsA : EngineParams := ⟨1, none⟩

/-- Realization of `drawsA` to horizon 20: request 0 is served on arrival
(wait 0), request 1 waits 9 in the queue, both services finish. -/
def runA20 : Option EngineResult := runRealization drawsA paramsA 20 10

/-- Realization of `drawsA` to horizon 12: request 1's service is still
running when the horizon cuts the run off. -/
def runA12 : Option EngineResult := runRealization drawsA paramsA 12 10

/-- Realization whose first arrival falls beyond the horizon: no event is
processed, the system stays at level 0 throughout. -/
def runB10 : Option EngineResult := runRealization (fun _ => 100) paramsA 10 5

def resA20 : EngineResult := runA20.getD default

def resA12 : EngineResult := runA12.getD default

def resB10 : EngineResult := runB10.getD default

/-! ## The analytic reference (`validation.py`, `MarkovianQueueTheory`) -/

/-- The result dictionary of `calculate_mm1_characteristics` in the stable
case (the unstable case returns an error dictionary, modelled as `none`). -/
structure MM1Stats where
  rho : ℚ
  p0 : ℚ
  avg_queue_length : ℚ
  avg_wait_time : ℚ
  avg_system_time : ℚ
  avg_in_system : ℚ
  probabilities : List (ℕ × ℚ)
  relative_throughput : ℚ
  absolute_throughput : ℚ
  p_rejection : ℚ
deriving DecidableEq, Repr

/-- `MarkovianQueueTheory.calculate_mm1_characteristics(λ, μ)`:
`none` models the `stable: False` error dictionary returned when
`rho >= 1.0`. -/
def calculate_mm1_characteristics (lam mu : ℚ) : Option MM1Stats :=
  let rho := lam / mu
  if 1 ≤ rho then none
  else
    let p0 := 1 - rho
    some {
      rho := rho
      p0 := p0
      avg_queue_length := rho ^ 2 / (1 - rho)
      avg_wait_time := rho / (mu * (1 - rho))
      avg_system_time := 1 / (mu * (1 - rho))
      avg_in_system := rho / (1 - rho)
      probabilities := (List.range 21).map fun k => (k, p0 * rho ^ k)
      relative_throughput := 1
      absolute_throughput := lam
      p_rejection := 0 }

/-- The result dictionary of `calculate_mmn_characteristics` in the stable
case. -/
structure MMnStats where
  rho : ℚ
  p0 : ℚ
  pw : ℚ
  avg_queue_length : ℚ
  avg_wait_time : ℚ
  avg_system_time : ℚ
  avg_in_system : ℚ
  probabilities : List (ℕ × ℚ)
deriving DecidableEq, Repr

/-- `MarkovianQueueTheory.calculate_mmn_characteristics(λ, μ, n)`.
The `p0` loop accumulates `a^k / k!` for `k = 1..n` (the running
`factorial_n` equals `k!` at step `k`), then multiplies `factorial_n` by
`n` once more, so the added tail term is `a^n / (n! * n) / (1 - rho)`;
finally `1.0` is added for `k = 0`.  The state-probability loop's
`eval`-built factorial computes `k!` (and `1` when `k = 0`). -/
def calculate_mmn_characteristics (lam mu : ℚ) (n : ℕ) : Option MMnStats :=
  let rho := lam / (n * mu)
  if 1 ≤ rho then none
  else
    let a := lam / mu
    let loopSum := ((List.range n).map fun (k : ℕ) => a ^ (k + 1) / (Nat.factorial (k + 1) : ℚ)).sum
    let erlang_c_numerator := a ^ n / ((Nat.factorial n : ℚ) * n)
    let erlang_c_denominator := 1 - rho
    let p0_inv := loopSum + erlang_c_numerator / erlang_c_denominator + 1
    let p0 := 1 / p0_inv
    let pw := erlang_c_numerator * p0 / erlang_c_denominator
    let avg_queue_length := pw * rho / (1 - rho)
    let avg_wait_time := avg_queue_length / lam
    let avg_system_time := avg_wait_time + 1 / mu
    some {
      rho := rho
      p0 := p0
      pw := pw
      avg_queue_length := avg_queue_length
      avg_wait_time := avg_wait_time
      avg_system_time := avg_system_time
      avg_in_system := lam * avg_system_time
      probabilities := (List.range (min 21 (n + 10))).map fun (k : ℕ) =>
        if k < n then (k, p0 * a ^ k / (Nat.factorial k : ℚ))
        else (k, p0 * a ^ k / ((Nat.factorial n : ℚ) * (n : ℚ) ^ (k - n))) }

/-- Modelled from the spec: the standard Erlang-C normalization
`p0 = 1 / (Σ_{k=0}^{n-1} a^k/k! + a^n/(n!·(1-ρ)))` with `a = λ/μ` and
`ρ = λ/(nμ)`, which the spec prescribes in place of the source's
iteration. -/
def specErlangP0 (lam mu : ℚ) (n : ℕ) : ℚ :=
  let a := lam / mu
  let rho := lam / (n * mu)
  1 / (((List.range n).map fun (k : ℕ) => a ^ k / (Nat.factorial k : ℚ)).sum
        + a ^ n / ((Nat.factorial n : ℚ) * (1 - rho)))

/-- Modelled from the spec: the standard Erlang-C waiting probability
`(a^n/n!) · p0 / (1-ρ)`. -/
def specErlangPw (lam mu : ℚ) (n : ℕ) : ℚ :=
  let a := lam / mu
  let rho := lam / (n * mu)
  (a ^ n / (Nat.factorial n : ℚ)) * specErlangP0 lam mu n / (1 - rho)

/-! ## The random generator (`random_generator.py`) -/

/-- The process-wide state of Python's `random` module, as the simulator
uses it: a stream of uniform draws and a cursor.  `random.random()`
returns `stream index` and advances the cursor; `random.seed(s)` resets
the state to a function of `s` alone.  The Mersenne Twister itself is
outside the repository; it is modelled by an arbitrary concrete
deterministic map from the seed, which is the only property the code
relies on. -/
structure GlobalRandom where
  stream : ℕ → ℚ
  index : ℕ

/-- Deterministic model of the seeded Mersenne-Twister output stream. -/
def mtStream (seed : ℤ) : ℕ → ℚ :=
  fun n => (((seed.natAbs + 7) * (n + 13) % 1000003 : ℕ) : ℚ) / 1000003

/-- `random.seed(s)`: overwrite the global state deterministically. -/
def randomSeed (seed : ℤ) (_g : GlobalRandom) : GlobalRandom :=
  ⟨mtStream seed, 0⟩

/-- `RandomGenerator.__init__(seed)`: seeds the *global* `random` module
when `seed is not None`, otherwise leaves the global state untouched. -/
def randomGeneratorInit (seed : Option ℤ) (g : GlobalRandom) : GlobalRandom :=
  match seed with
  | some s => randomSeed s g
  | none => g

end Lab8

namespace Lab8

/-! ## The variate formulas (`random_generator.py`), over `ℝ`

Each `generate_*` method draws uniforms `R ∈ [0, 1)` from the global
stream and applies a closed-form map; the maps (which need `log`, `sqrt`
and real powers) are modelled here as functions of the drawn uniforms.
`1e-10` is modelled as the exact rational `10⁻¹⁰`. -/

noncomputable section

/-- `RandomGenerator.generate_exponential(λ)` applied to the draw `R`:
`-(1/λ) * ln(max(R, 1e-10))`. -/
def generate_exponential (lam R : ℝ) : ℝ :=
  -(1 / lam) * Real.log (max R (1 / 10 ^ 10))

/-- `RandomGenerator.generate_weibull(a, b)` applied to the draw `R`:
`b * (-ln(max(R, 1e-10))) ** (1/a)` (a real power). -/
def generate_weibull (a b R : ℝ) : ℝ :=
  b * (-Real.log (max R (1 / 10 ^ 10))) ^ (1 / a)

/-- `RandomGenerator.generate_gamma(λ, η)` applied to the η draws `Rs`:
`-(1/λ) * Σ ln(1 - min(R_j, 1 - 1e-10))`. -/
def generate_gamma (lam : ℝ) (Rs : List ℝ) : ℝ :=
  -(1 / lam) * ((Rs.map fun R => Real.log (1 - min R (1 - 1 / 10 ^ 10))).sum)

/-- `RandomGenerator.generate_normal(m, σ)` applied to the six draws `Rs`:
`σ * √2 * (Σ R_i - 3) + m`. -/
def generate_normal (m sigma : ℝ) (Rs : List ℝ) : ℝ :=
  sigma * Real.sqrt 2 * (Rs.sum - 3) + m

end

end Lab8

namespace Lab8

/-! ## Theorems -/

theorem list_sum_nonpos {l : List ℝ} (h : ∀ x ∈ l, x ≤ 0) : l.sum ≤ 0 := by
  induction l with
  | nil => simp
  | cons a t ih =>
    simp only [List.sum_cons]
    have ha := h a (List.mem_cons_self a t)
    have ht := ih fun x hx => h x (List.mem_cons_of_mem a hx)
    linarith

/-- C2: determinism.  Constructing a `RandomGenerator` (directly, or inside
`SimulationEngine.__init__`) with `seed = some s` reseeds the global
`random` module to a state depending on `s` alone, so whatever the global
state was beforehand (`g1` versus `g2`), the two instances see the same
uniform stream: a realization run right after construction returns the
same `RealizationStatistics` dictionary, and the same sequence of sample
calls (`toDurations` maps the seeded uniform stream to the sequence of
sampled values) returns the same outputs. -/
theorem c2_same_seed_same_results :
    ∀ (toDurations : (ℕ → ℚ) → ℕ → ℚ) (g1 g2 : GlobalRandom) (s : ℤ)
      (p : EngineParams) (T : ℚ) (fuel : ℕ),
      runRealization (toDurations (randomGeneratorInit (some s) g1).stream) p T fuel =
        runRealization (toDurations (randomGeneratorInit (some s) g2).stream) p T fuel ∧
      ∀ k, toDurations (randomGeneratorInit (some s) g1).stream k =
        toDurations (randomGeneratorInit (some s) g2).stream k :=
  fun _ _ _ _ _ _ _ => ⟨rfl, fun _ => rfl⟩

/-- C3: stability boundary.  For `λ, μ > 0`, `calculate_mm1_characteristics`
returns the `Unstable` error (modelled `none`) iff `λ ≥ μ`, and for
`n ≥ 1` channels `calculate_mmn_characteristics` returns it iff `λ ≥ n·μ`;
otherwise both return a stable result. -/
theorem c3_stability_boundary :
    (∀ lam mu : ℚ, 0 < lam → 0 < mu →
      (calculate_mm1_characteristics lam mu = none ↔ mu ≤ lam)) ∧
    (∀ (lam mu : ℚ) (n : ℕ), 0 < lam → 0 < mu → 1 ≤ n →
      (calculate_mmn_characteristics lam mu n = none ↔ (n : ℚ) * mu ≤ lam)) := by
  constructor
  · intro lam mu _ hmu
    have hiff : (1 : ℚ) ≤ lam / mu ↔ mu ≤ lam := one_le_div hmu
    by_cases h : (1 : ℚ) ≤ lam / mu
    · simp [calculate_mm1_characteristics, h, hiff.mp h]
    · simp only [calculate_mm1_characteristics, if_neg h]
      simp only [reduceCtorEq, false_iff]
      exact fun hc => h (hiff.mpr hc)
  · intro lam mu n _ hmu hn
    have hnmu : (0 : ℚ) < (n : ℚ) * mu := by
      have : (0 : ℚ) < (n : ℚ) := by exact_mod_cast hn
      positivity
    have hiff : (1 : ℚ) ≤ lam / ((n : ℚ) * mu) ↔ (n : ℚ) * mu ≤ lam := one_le_div hnmu
    by_cases h : (1 : ℚ) ≤ lam / ((n : ℚ) * mu)
    · simp [calculate_mmn_characteristics, h, hiff.mp h]
    · simp only [calculate_mmn_characteristics, if_neg h]
      simp only [reduceCtorEq, false_iff]
      exact fun hc => h (hiff.mpr hc)

/-- C3 witness: concrete instances of the boundary at `λ=2, μ=1` (M/M/1,
unstable) and `λ=3, μ=1, n=2` (M/M/2, unstable). -/
theorem c3_stability_boundary_witness :
    (calculate_mm1_characteristics 2 1 = none ↔ (1 : ℚ) ≤ 2) ∧
    (calculate_mmn_characteristics 3 1 2 = none ↔ ((2 : ℕ) : ℚ) * 1 ≤ 3) :=
  ⟨c3_stability_boundary.1 2 1 (by norm_num) (by norm_num),
   c3_stability_boundary.2 3 1 2 (by norm_num) (by norm_num) (by norm_num)⟩

/-- C4: in the stable case `0 < λ/μ < 1` the M/M/1 reference returns
exactly `ρ = λ/μ`, `p0 = 1-ρ`, `p_k = p0·ρ^k` (for the 21 tabulated
states), mean queue length `ρ²/(1-ρ)`, mean wait `ρ/(μ(1-ρ))` and mean
sojourn `1/(μ(1-ρ))`. -/
theorem c4_mm1_formulas (lam mu : ℚ) (h0 : 0 < lam / mu) (h1 : lam / mu < 1) :
    ∃ st, calculate_mm1_characteristics lam mu = some st ∧
      st.rho = lam / mu ∧
      st.p0 = 1 - lam / mu ∧
      st.probabilities = (List.range 21).map (fun k => (k, (1 - lam / mu) * (lam / mu) ^ k)) ∧
      st.avg_queue_length = (lam / mu) ^ 2 / (1 - lam / mu) ∧
      st.avg_wait_time = (lam / mu) / (mu * (1 - lam / mu)) ∧
      st.avg_system_time = 1 / (mu * (1 - lam / mu)) := by
  unfold calculate_mm1_characteristics
  rw [if_neg (not_le.mpr h1)]
  exact ⟨_, rfl, rfl, rfl, rfl, rfl, rfl, rfl⟩

/-- C4 witness: the theorem at `λ = 1, μ = 2`. -/
theorem c4_mm1_formulas_witness :
    0 < (1 : ℚ) / 2 ∧ (1 : ℚ) / 2 < 1 ∧
    ∃ st, calculate_mm1_characteristics 1 2 = some st ∧
      st.rho = 1 / 2 ∧
      st.p0 = 1 - 1 / 2 ∧
      st.probabilities = (List.range 21).map (fun k => (k, (1 - 1 / 2) * ((1 : ℚ) / 2) ^ k)) ∧
      st.avg_queue_length = ((1 : ℚ) / 2) ^ 2 / (1 - 1 / 2) ∧
      st.avg_wait_time = ((1 : ℚ) / 2) / (2 * (1 - 1 / 2)) ∧
      st.avg_system_time = 1 / (2 * (1 - 1 / 2)) := by
  refine ⟨by norm_num, by norm_num, ?_⟩
  have h := c4_mm1_formulas 1 2 (by norm_num) (by norm_num)
  simpa using h

/-- C5: the source's `p0` iteration is **not** the standard Erlang-C
normalization.  The loop runs `k = 1..n` (one term too many) and then
multiplies the factorial by `n` once more, so the tail term is divided by
`n!·n` instead of `n!`.  At `λ=1, μ=2, n=1` (`ρ=1/2`) the code returns
`p0 = pw = 2/5` while the standard closed forms (which the spec
prescribes, and which the function's own docstring claims to implement)
give `p0 = pw = 1/2`. -/
theorem c5_mmn_not_erlangC :
    (calculate_mmn_characteristics 1 2 1).map MMnStats.p0 = some (2 / 5) ∧
    (calculate_mmn_characteristics 1 2 1).map MMnStats.pw = some (2 / 5) ∧
    specErlangP0 1 2 1 = 1 / 2 ∧
    specErlangPw 1 2 1 = 1 / 2 ∧
    ((2 : ℚ) / 5) ≠ ((1 : ℚ) / 2) := by
  refine ⟨?_, ?_, ?_, ?_, by norm_num⟩ <;>
    norm_num [calculate_mmn_characteristics, specErlangP0, specErlangPw, Nat.factorial,
      List.range_succ]

/-- C7 counterexample: `generate_normal` can return a negative sample for
valid parameters (`m = 1`, `σ = 1 > 0`) and uniform draws in `[0, 1)`
(all six equal to `1/4`): the value is `1 - (3/2)·√2 < 0`.  This refutes
"sample(distribution, params) → real ≥ 0" for the normal distribution. -/
theorem c7_counterexample :
    0 < (1 : ℝ) ∧ (∀ r ∈ List.replicate 6 ((1 : ℝ) / 4), 0 ≤ r ∧ r < 1) ∧
    generate_normal 1 1 (List.replicate 6 ((1 : ℝ) / 4)) < 0 := by
  refine ⟨one_pos, ?_, ?_⟩
  · intro r hr
    rw [List.eq_of_mem_replicate hr]
    norm_num
  · unfold generate_normal
    have hsum : (List.replicate 6 ((1 : ℝ) / 4)).sum = 3 / 2 := by
      simp [List.sum_replicate]
      norm_num
    rw [hsum]
    have hs := Real.sq_sqrt (show (0 : ℝ) ≤ 2 by norm_num)
    have hnn := Real.sqrt_nonneg 2
    nlinarith [hs, hnn]

/-- C7 amended: the exponential, Weibull and gamma generators do return
non-negative samples for every valid parameter set and every sequence of
uniform draws in `[0, 1)` (the clamps `max(R, 1e-10)` / `min(R, 1-1e-10)`
keep the logarithm arguments in `(0, 1]`); the normal generator's sample
`σ·√2·(ΣR-3)+m` can be negative (see the counterexample). -/
theorem c7_amended (lam a b R : ℝ) (Rs : List ℝ)
    (hlam : 0 < lam) (ha : 0 < a) (hb : 0 < b)
    (hR0 : 0 ≤ R) (hR1 : R < 1) (hRs : ∀ r ∈ Rs, 0 ≤ r ∧ r < 1) :
    0 ≤ generate_exponential lam R ∧
    0 ≤ generate_weibull a b R ∧
    0 ≤ generate_gamma lam Rs := by
  have hM0 : (0 : ℝ) ≤ max R (1 / 10 ^ 10) := le_max_of_le_right (by norm_num)
  have hM1 : max R (1 / 10 ^ 10) ≤ 1 := max_le (le_of_lt hR1) (by norm_num)
  have hlog : Real.log (max R (1 / 10 ^ 10)) ≤ 0 := Real.log_nonpos hM0 hM1
  refine ⟨?_, ?_, ?_⟩
  · unfold generate_exponential
    have : -(1 / lam) * Real.log (max R (1 / 10 ^ 10)) =
        (1 / lam) * (-Real.log (max R (1 / 10 ^ 10))) := by ring
    rw [this]
    exact mul_nonneg (by positivity) (by linarith)
  · unfold generate_weibull
    exact mul_nonneg hb.le (Real.rpow_nonneg (by linarith) _)
  · unfold generate_gamma
    have hsum : ((Rs.map fun R => Real.log (1 - min R (1 - 1 / 10 ^ 10))).sum) ≤ 0 := by
      refine list_sum_nonpos ?_
      intro x hx
      rcases List.mem_map.mp hx with ⟨r, hr, hxr⟩
      rcases hRs r hr with ⟨hr0, _⟩
      have hmin0 : 0 ≤ min r (1 - 1 / 10 ^ 10) := le_min hr0 (by norm_num)
      have hmin1 : min r (1 - 1 / 10 ^ 10) ≤ 1 - 1 / 10 ^ 10 := min_le_right _ _
      subst hxr
      exact Real.log_nonpos (by linarith) (by linarith)
    have : -(1 / lam) * ((Rs.map fun R => Real.log (1 - min R (1 - 1 / 10 ^ 10))).sum) =
        (1 / lam) * (-((Rs.map fun R => Real.log (1 - min R (1 - 1 / 10 ^ 10))).sum)) := by ring
    rw [this]
    exact mul_nonneg (by positivity) (by linarith)

/-- C7 amended witness: the theorem at `λ = a = b = 1`, draw `R = 1/2`,
gamma draws `[1/2, 1/2]`. -/
theorem c7_amended_witness :
    0 ≤ generate_exponential 1 (1 / 2) ∧
    0 ≤ generate_weibull 1 1 (1 / 2) ∧
    0 ≤ generate_gamma 1 [1 / 2, 1 / 2] := by
  have h := c7_amended 1 1 1 (1 / 2) [1 / 2, 1 / 2] (by norm_num) (by norm_num) (by norm_num)
    (by norm_num) (by norm_num) ?_
  · exact h
  · intro r hr
    simp only [List.mem_cons, List.not_mem_nil, or_false] at hr
    rcases hr with h1 | h1 <;> rw [h1] <;> norm_num

/-! ### Heap lemmas (for C6) -/

theorem eT_set_eq {l : List Event} {i : ℕ} {a : Event} (h : i < l.length) :
    eT (l.set i a) i = a.time := by
  simp [eT, List.getD_eq_getElem?_getD, List.getElem?_set, h]

theorem eT_set_ne {l : List Event} (i j : ℕ) (a : Event) (h : i ≠ j) :
    eT (l.set i a) j = eT l j := by
  simp [eT, List.getD_eq_getElem?_getD, List.getElem?_set, h]

theorem getD_eq_getElem {l : List Event} {i : ℕ} (h : i < l.length) :
    l.getD i dummyEvent = l[i] := by
  simp [List.getD_eq_getElem?_getD, List.getElem?_eq_getElem h]

theorem set_swap_perm (l : List Event) (i j : ℕ) (b : Event) (hij : i ≠ j)
    (hi : i < l.length) (hj : j < l.length) :
    ((l.set i (l.getD j dummyEvent)).set j b).Perm (l.set i b) := by
  rw [List.perm_iff_count]
  intro a
  have hj' : j < (l.set i (l.getD j dummyEvent)).length := by simpa using hj
  rw [List.count_set _ _ _ _ hj', List.count_set _ _ _ _ hi, List.count_set _ _ _ _ hi]
  have hgd : (l.set i (l.getD j dummyEvent))[j] = l[j] := by
    have := List.getElem?_set_ne (l := l) (a := l.getD j dummyEvent) hij
    rw [List.getElem?_eq_getElem hj'] at this
    rw [List.getElem?_eq_getElem hj] at this
    exact Option.some_injective _ this
  rw [hgd, getD_eq_getElem hj]
  omega

theorem set_append_last (l : List Event) (item x : Event) :
    (l ++ [item]).set l.length x = l ++ [x] := by
  induction l with
  | nil => rfl
  | cons a t ih => simp [List.set_cons_succ, ih]

/-- `_siftdown` permutes the heap: the result holds the same multiset as
the input with `newitem` written at the hole. -/
theorem siftdownGo_perm (newitem : Event) :
    ∀ (fuel : ℕ) (l : List Event) (pos : ℕ), pos ≤ fuel → pos < l.length →
      (siftdownGo newitem fuel l pos).Perm (l.set pos newitem) := by
  intro fuel
  induction fuel with
  | zero =>
    intro l pos hf _
    have : pos = 0 := by omega
    subst this
    simp [siftdownGo]
  | succ fuel ih =>
    intro l pos hf hl
    by_cases hp : 0 < pos
    · simp only [siftdownGo, if_pos hp]
      by_cases hlt : newitem.time < (l.getD ((pos - 1) / 2) dummyEvent).time
      · rw [if_pos hlt]
        have hplt : (pos - 1) / 2 < pos := by omega
        have h1 : (pos - 1) / 2 ≤ fuel := by omega
        have h2 : (pos - 1) / 2 < (l.set pos (l.getD ((pos - 1) / 2) dummyEvent)).length := by
          simp only [List.length_set]; omega
        refine (ih _ _ h1 h2).trans ?_
        exact set_swap_perm l pos ((pos - 1) / 2) newitem (by omega) hl (by omega)
      · rw [if_neg hlt]
    · simp only [siftdownGo, if_neg hp]
      exact List.Perm.refl _

/-- `heappush` permutes: the new heap holds the pushed item plus the old
elements. -/
theorem heappush_perm (l : List Event) (item : Event) :
    (heappush l item).Perm (item :: l) := by
  unfold heappush siftdownAux
  have h := siftdownGo_perm item l.length (l ++ [item]) l.length le_rfl (by simp)
  rw [set_append_last] at h
  exact h.trans (List.perm_append_singleton _ _)

/-- `_siftup` permutes likewise. -/
theorem siftupGo_perm (newitem : Event) :
    ∀ (fuel : ℕ) (l : List Event) (pos : ℕ), pos < l.length →
      (siftupGo newitem fuel l pos).Perm (l.set pos newitem) := by
  intro fuel
  induction fuel with
  | zero =>
    intro l pos hl
    show (siftdownAux newitem (l.set pos newitem) pos).Perm (l.set pos newitem)
    unfold siftdownAux
    have h := siftdownGo_perm newitem pos (l.set pos newitem) pos le_rfl (by simpa using hl)
    rwa [List.set_set] at h
  | succ fuel ih =>
    intro l pos hl
    by_cases hc : 2 * pos + 1 < l.length
    · simp only [siftupGo, if_pos hc]
      set cpos := if 2 * pos + 1 + 1 < l.length ∧
          ¬ (l.getD (2 * pos + 1) dummyEvent).time < (l.getD (2 * pos + 1 + 1) dummyEvent).time
        then 2 * pos + 1 + 1 else 2 * pos + 1 with hcpos
      have hrange : pos < cpos ∧ cpos < l.length := by
        rw [hcpos]; split
        · exact ⟨by omega, by omega⟩
        · exact ⟨by omega, hc⟩
      have h2 : cpos < (l.set pos (l.getD cpos dummyEvent)).length := by
        simp only [List.length_set]; exact hrange.2
      refine (ih _ _ h2).trans ?_
      exact set_swap_perm l pos cpos newitem (by omega) hl hrange.2
    · simp only [siftupGo, if_neg hc]
      unfold siftdownAux
      have h := siftdownGo_perm newitem pos (l.set pos newitem) pos le_rfl (by simpa using hl)
      rwa [List.set_set] at h

/-- `heappop` permutes: the input heap holds the returned event plus the
remaining heap's elements. -/
theorem heappop_perm {l : List Event} {e : Event} {rest : List Event}
    (h : heappop l = some (e, rest)) : l.Perm (e :: rest) := by
  unfold heappop at h
  cases hl : l.getLast? with
  | none => rw [hl] at h; exact absurd h (by simp)
  | some lastelt =>
    rw [hl] at h
    have hne : l ≠ [] := by
      intro hnil; subst hnil; simp at hl
    have hsplit : l.dropLast ++ [lastelt] = l := by
      rw [List.getLast?_eq_getLast l hne, Option.some_inj] at hl
      rw [← hl]
      exact List.dropLast_append_getLast hne
    cases hd : l.dropLast with
    | nil =>
      rw [hd] at h hsplit
      simp only [Option.some_inj, Prod.mk.injEq] at h
      obtain ⟨he, hrest⟩ := h
      subst he
      subst hrest
      rw [← hsplit]
      exact List.Perm.refl _
    | cons r0 rtail =>
      rw [hd] at h hsplit
      simp only [Option.some_inj, Prod.mk.injEq] at h
      obtain ⟨he, hrest⟩ := h
      have hperm : rest.Perm (lastelt :: rtail) := by
        rw [← hrest]
        unfold siftupAux
        have hp0 := siftupGo_perm lastelt (lastelt :: rtail).length (lastelt :: rtail) 0 (by simp)
        simpa using hp0
      subst he
      have hfinal : ((r0 :: rtail) ++ [lastelt]).Perm (r0 :: rest) :=
        (List.Perm.cons r0 (List.perm_append_singleton lastelt rtail)).trans
          (List.Perm.cons r0 hperm.symm)
      rw [hsplit] at hfinal
      exact hfinal

theorem eT_append_lt {l l₂ : List Event} {i : ℕ} (h : i < l.length) :
    eT (l ++ l₂) i = eT l i := by
  simp [eT, List.getD_eq_getElem?_getD, List.getElem?_append, h]

/-- Placing `newitem` into the hole at `pos` yields a heap, provided the
other edges are heap edges (`h1`), the hole's children dominate `newitem`
(`h2`) and the hole's parent is below `newitem` (`hpar`). -/
theorem siftdown_place_hp (newitem : Event) (l : List Event) (pos : ℕ) (hl : pos < l.length)
    (h1 : ∀ j, 0 < j → j < l.length → j ≠ pos → (j - 1) / 2 ≠ pos → eT l ((j - 1) / 2) ≤ eT l j)
    (h2 : ∀ j, 0 < j → j < l.length → (j - 1) / 2 = pos → newitem.time ≤ eT l j)
    (hpar : 0 < pos → eT l ((pos - 1) / 2) ≤ newitem.time) :
    IsMinHeap (l.set pos newitem) := by
  intro j hj0 hjlen
  rw [List.length_set] at hjlen
  by_cases hjp : j = pos
  · subst hjp
    rw [eT_set_eq hl, eT_set_ne _ _ _ (by omega)]
    exact hpar hj0
  · by_cases hpj : (j - 1) / 2 = pos
    · rw [hpj, eT_set_eq hl, eT_set_ne _ _ _ (Ne.symm hjp)]
      exact h2 j hj0 hjlen hpj
    · rw [eT_set_ne _ _ _ (Ne.symm hpj), eT_set_ne _ _ _ (Ne.symm hjp)]
      exact h1 j hj0 hjlen hjp hpj

/-- `_siftdown` restores the heap invariant from a heap with a hole. -/
theorem siftdownGo_hp (newitem : Event) :
    ∀ (fuel : ℕ) (l : List Event) (pos : ℕ), pos ≤ fuel → pos < l.length →
      (∀ j, 0 < j → j < l.length → j ≠ pos → (j - 1) / 2 ≠ pos → eT l ((j - 1) / 2) ≤ eT l j) →
      (∀ j, 0 < j → j < l.length → (j - 1) / 2 = pos → newitem.time ≤ eT l j) →
      (∀ j, 0 < j → j < l.length → (j - 1) / 2 = pos → 0 < pos → eT l ((pos - 1) / 2) ≤ eT l j) →
      IsMinHeap (siftdownGo newitem fuel l pos) := by
  intro fuel
  induction fuel with
  | zero =>
    intro l pos hf hl h1 h2 _
    have hp0 : pos = 0 := by omega
    subst hp0
    exact siftdown_place_hp newitem l 0 hl h1 h2 (by omega)
  | succ fuel ih =>
    intro l pos hf hl h1 h2 h3
    by_cases hp : 0 < pos
    · simp only [siftdownGo, if_pos hp]
      by_cases hlt : newitem.time < (l.getD ((pos - 1) / 2) dummyEvent).time
      · rw [if_pos hlt]
        have hpplt : (pos - 1) / 2 < pos := by omega
        refine ih _ _ (by omega) (by simp only [List.length_set]; omega) ?_ ?_ ?_
        · -- h1 for the hole moved to the parent position
          intro j hj0 hjl hjne hjpar
          rw [List.length_set] at hjl
          by_cases hjpos : j = pos
          · subst hjpos
            exact absurd rfl hjpar
          · by_cases hjparpos : (j - 1) / 2 = pos
            · rw [hjparpos, eT_set_eq hl, eT_set_ne _ _ _ (Ne.symm hjpos)]
              exact h3 j hj0 hjl hjparpos hp
            · rw [eT_set_ne _ _ _ (Ne.symm hjparpos), eT_set_ne _ _ _ (Ne.symm hjpos)]
              exact h1 j hj0 hjl hjpos hjparpos
        · -- h2: children of the new hole dominate newitem
          intro j hj0 hjl hjpar
          rw [List.length_set] at hjl
          by_cases hjpos : j = pos
          · subst hjpos
            rw [eT_set_eq hl]
            exact le_of_lt hlt
          · rw [eT_set_ne _ _ _ (Ne.symm hjpos)]
            have hj1 : eT l ((pos - 1) / 2) ≤ eT l j := by
              have hh := h1 j hj0 hjl hjpos (by omega)
              rwa [hjpar] at hh
            exact le_trans (le_of_lt hlt) hj1
        · -- h3: the new hole's parent is below its children
          intro j hj0 hjl hjpar hpp0
          rw [List.length_set] at hjl
          have hgne : pos ≠ ((pos - 1) / 2 - 1) / 2 := by omega
          rw [eT_set_ne _ _ _ hgne]
          have hgpp : eT l (((pos - 1) / 2 - 1) / 2) ≤ eT l ((pos - 1) / 2) :=
            h1 ((pos - 1) / 2) hpp0 (by omega) (by omega) (by omega)
          by_cases hjpos : j = pos
          · subst hjpos
            rw [eT_set_eq hl]
            exact hgpp
          · rw [eT_set_ne _ _ _ (Ne.symm hjpos)]
            have hppj : eT l ((pos - 1) / 2) ≤ eT l j := by
              have hh := h1 j hj0 hjl hjpos (by omega)
              rwa [hjpar] at hh
            exact le_trans hgpp hppj
      · rw [if_neg hlt]
        exact siftdown_place_hp newitem l pos hl h1 h2 (fun _ => not_lt.mp hlt)
    · simp only [siftdownGo, if_neg hp]
      exact siftdown_place_hp newitem l pos hl h1 h2 (fun hpos => absurd hpos hp)

/-- `heappush` preserves the heap invariant. -/
theorem heappush_hp (l : List Event) (item : Event) (hl : IsMinHeap l) :
    IsMinHeap (heappush l item) := by
  unfold heappush siftdownAux
  refine siftdownGo_hp item l.length (l ++ [item]) l.length le_rfl (by simp) ?_ ?_ ?_
  · intro j hj0 hjl hjne _
    simp only [List.length_append, List.length_singleton] at hjl
    have hjlen : j < l.length := by omega
    rw [eT_append_lt (show (j - 1) / 2 < l.length by omega), eT_append_lt hjlen]
    exact hl j hj0 hjlen
  · intro j hj0 hjl hjpar
    simp only [List.length_append, List.length_singleton] at hjl
    omega
  · intro j hj0 hjl hjpar _
    simp only [List.length_append, List.length_singleton] at hjl
    omega

/-- `_siftup` restores the heap invariant after the root is replaced. -/
theorem siftupGo_hp (newitem : Event) :
    ∀ (fuel : ℕ) (l : List Event) (pos : ℕ), l.length - pos ≤ fuel → pos < l.length →
      (∀ j, 0 < j → j < l.length → j ≠ pos → (j - 1) / 2 ≠ pos → eT l ((j - 1) / 2) ≤ eT l j) →
      (∀ j, 0 < j → j < l.length → (j - 1) / 2 = pos → 0 < pos → eT l ((pos - 1) / 2) ≤ eT l j) →
      IsMinHeap (siftupGo newitem fuel l pos) := by
  intro fuel
  induction fuel with
  | zero =>
    intro l pos hf hl _ _
    omega
  | succ fuel ih =>
    intro l pos hf hl h1 h3
    by_cases hc : 2 * pos + 1 < l.length
    · simp only [siftupGo, if_pos hc]
      by_cases hsel : 2 * pos + 1 + 1 < l.length ∧
          ¬ (l.getD (2 * pos + 1) dummyEvent).time < (l.getD (2 * pos + 1 + 1) dummyEvent).time
      · rw [if_pos hsel]
        -- cpos = 2*pos+2 (the right child, not larger than the left one)
        have hmin : ∀ j, 0 < j → j < l.length → (j - 1) / 2 = pos → j ≠ 2 * pos + 1 + 1 →
            eT l (2 * pos + 1 + 1) ≤ eT l j := by
          intro j _ _ hjpar hjne
          have : j = 2 * pos + 1 := by omega
          subst this
          exact not_lt.mp hsel.2
        refine ih _ _ (by simp only [List.length_set]; omega)
          (by simp only [List.length_set]; omega) ?_ ?_
        · intro j hj0 hjl hjne hjpar
          rw [List.length_set] at hjl
          by_cases hjpos : j = pos
          · subst hjpos
            rw [eT_set_ne _ _ _ (by omega), eT_set_eq hl]
            exact h3 _ (by omega) (by omega) (by omega) hj0
          · by_cases hjpar2 : (j - 1) / 2 = pos
            · rw [hjpar2, eT_set_eq hl, eT_set_ne _ _ _ (Ne.symm hjpos)]
              exact hmin j hj0 hjl hjpar2 hjne
            · rw [eT_set_ne _ _ _ (Ne.symm hjpar2), eT_set_ne _ _ _ (Ne.symm hjpos)]
              exact h1 j hj0 hjl hjpos hjpar2
        · intro j hj0 hjl hjpar hcp0
          rw [List.length_set] at hjl
          have hcpar : (2 * pos + 1 + 1 - 1) / 2 = pos := by omega
          rw [hcpar, eT_set_eq hl, eT_set_ne _ _ _ (by omega)]
          have hh := h1 j hj0 hjl (by omega) (by omega)
          rwa [hjpar] at hh
      · rw [if_neg hsel]
        -- cpos = 2*pos+1 (the left child)
        have hmin : ∀ j, 0 < j → j < l.length → (j - 1) / 2 = pos → j ≠ 2 * pos + 1 →
            eT l (2 * pos + 1) ≤ eT l j := by
          intro j _ hjl hjpar hjne
          have hj2 : j = 2 * pos + 1 + 1 := by omega
          subst hj2
          rcases not_and_or.mp hsel with hcase | hcase
          · omega
          · exact le_of_lt (not_not.mp hcase)
        refine ih _ _ (by simp only [List.length_set]; omega)
          (by simp only [List.length_set]; omega) ?_ ?_
        · intro j hj0 hjl hjne hjpar
          rw [List.length_set] at hjl
          by_cases hjpos : j = pos
          · subst hjpos
            rw [eT_set_ne _ _ _ (by omega), eT_set_eq hl]
            exact h3 _ (by omega) (by omega) (by omega) hj0
          · by_cases hjpar2 : (j - 1) / 2 = pos
            · rw [hjpar2, eT_set_eq hl, eT_set_ne _ _ _ (Ne.symm hjpos)]
              exact hmin j hj0 hjl hjpar2 hjne
            · rw [eT_set_ne _ _ _ (Ne.symm hjpar2), eT_set_ne _ _ _ (Ne.symm hjpos)]
              exact h1 j hj0 hjl hjpos hjpar2
        · intro j hj0 hjl hjpar hcp0
          rw [List.length_set] at hjl
          have hcpar : (2 * pos + 1 - 1) / 2 = pos := by omega
          rw [hcpar, eT_set_eq hl, eT_set_ne _ _ _ (by omega)]
          have hh := h1 j hj0 hjl (by omega) (by omega)
          rwa [hjpar] at hh
    · simp only [siftupGo, if_neg hc]
      unfold siftdownAux
      refine siftdownGo_hp newitem pos _ pos le_rfl (by simpa using hl) ?_ ?_ ?_
      · intro j hj0 hjl hjne hjpar
        rw [List.length_set] at hjl
        rw [eT_set_ne _ _ _ (Ne.symm hjpar), eT_set_ne _ _ _ (Ne.symm hjne)]
        exact h1 j hj0 hjl hjne hjpar
      · intro j hj0 hjl hjpar
        rw [List.length_set] at hjl
        omega
      · intro j hj0 hjl hjpar _
        rw [List.length_set] at hjl
        omega

theorem isMinHeap_nil : IsMinHeap [] := by
  intro j _ hj
  simp at hj

/-- In a heap the root is a minimum. -/
theorem isMinHeap_root_le (l : List Event) (hl : IsMinHeap l) :
    ∀ j, j < l.length → eT l 0 ≤ eT l j := by
  intro j
  induction j using Nat.strong_induction_on with
  | _ j ih =>
    intro hj
    rcases Nat.eq_zero_or_pos j with h0 | hpos
    · subst h0
      exact le_refl _
    · exact le_trans (ih ((j - 1) / 2) (by omega) (by omega)) (hl j hpos hj)

/-- `heappop` returns the root and leaves a heap. -/
theorem heappop_hp {l : List Event} {e : Event} {rest : List Event}
    (hheap : IsMinHeap l) (h : heappop l = some (e, rest)) :
    e = l.getD 0 dummyEvent ∧ IsMinHeap rest := by
  unfold heappop at h
  cases hl : l.getLast? with
  | none => rw [hl] at h; exact absurd h (by simp)
  | some lastelt =>
    rw [hl] at h
    have hne : l ≠ [] := by
      intro hnil; subst hnil; simp at hl
    have hsplit : l.dropLast ++ [lastelt] = l := by
      rw [List.getLast?_eq_getLast l hne, Option.some_inj] at hl
      rw [← hl]
      exact List.dropLast_append_getLast hne
    cases hd : l.dropLast with
    | nil =>
      rw [hd] at h hsplit
      simp only [Option.some_inj, Prod.mk.injEq] at h
      obtain ⟨he, hrest⟩ := h
      subst he
      subst hrest
      exact ⟨by rw [← hsplit]; rfl, isMinHeap_nil⟩
    | cons r0 rtail =>
      rw [hd] at h hsplit
      simp only [Option.some_inj, Prod.mk.injEq] at h
      obtain ⟨he, hrest⟩ := h
      subst he
      constructor
      · rw [← hsplit]
        rfl
      · rw [← hrest]
        unfold siftupAux
        refine siftupGo_hp lastelt _ (lastelt :: rtail) 0 le_rfl (by simp) ?_ ?_
        · intro j hj0 hjl hjne hjpar
          simp only [List.length_cons] at hjl
          have htr : ∀ i, 0 < i → i < rtail.length + 1 →
              eT (lastelt :: rtail) i = eT l i := by
            intro i hi0 hil
            obtain ⟨i', rfl⟩ : ∃ i', i = i' + 1 := ⟨i - 1, by omega⟩
            rw [← hsplit]
            show (rtail.getD i' dummyEvent).time = (((r0 :: rtail) ++ [lastelt]).getD (i' + 1) dummyEvent).time
            have : ((r0 :: rtail) ++ [lastelt]).getD (i' + 1) dummyEvent =
                (rtail ++ [lastelt]).getD i' dummyEvent := rfl
            rw [this]
            have h2 : (rtail ++ [lastelt]).getD i' dummyEvent = rtail.getD i' dummyEvent := by
              simp [List.getD_eq_getElem?_getD, List.getElem?_append, show i' < rtail.length by omega]
            rw [h2]
          have hlen : l.length = rtail.length + 2 := by
            rw [← hsplit]
            simp
          rw [htr j hj0 hjl, htr ((j - 1) / 2) (by omega) (by omega)]
          exact hheap j hj0 (by omega)
        · intro j hj0 hjl hjpar hfalse
          exact absurd hfalse (by omega)

/-- Every event popped out was in the queue. -/
theorem popAllFuel_mem : ∀ {fuel : ℕ} {l : List Event} {y : Event},
    y ∈ popAllFuel fuel l → y ∈ l := by
  intro fuel
  induction fuel with
  | zero =>
    intro l y hy
    simp [popAllFuel] at hy
  | succ fuel ih =>
    intro l y hy
    unfold popAllFuel at hy
    cases hpop : heappop l with
    | none => rw [hpop] at hy; simp at hy
    | some er =>
      obtain ⟨e, rest⟩ := er
      rw [hpop] at hy
      have hperm := heappop_perm hpop
      rcases List.mem_cons.mp hy with h | h
      · subst h
        exact hperm.mem_iff.mpr (List.mem_cons_self _ _)
      · exact hperm.mem_iff.mpr (List.mem_cons_of_mem _ (ih h))

/-- Popping a heap repeatedly yields events in non-decreasing time order. -/
theorem popAllFuel_sorted :
    ∀ (fuel : ℕ) (l : List Event), IsMinHeap l →
      (popAllFuel fuel l).Pairwise fun a b => a.time ≤ b.time := by
  intro fuel
  induction fuel with
  | zero =>
    intro l _
    exact List.Pairwise.nil
  | succ fuel ih =>
    intro l hl
    unfold popAllFuel
    cases hpop : heappop l with
    | none => exact List.Pairwise.nil
    | some er =>
      obtain ⟨e, rest⟩ := er
      obtain ⟨hroot, hrest⟩ := heappop_hp hl hpop
      have hperm := heappop_perm hpop
      refine List.Pairwise.cons ?_ (ih rest hrest)
      intro y hy
      have hyrest : y ∈ rest := popAllFuel_mem hy
      have hyl : y ∈ l := hperm.mem_iff.mpr (List.mem_cons_of_mem e hyrest)
      rcases List.mem_iff_getElem.mp hyl with ⟨i, hi, hiy⟩
      have hroot_le := isMinHeap_root_le l hl i hi
      have h0 : eT l i = y.time := by
        rw [eT, getD_eq_getElem hi, hiy]
      rw [hroot, ← h0]
      exact hroot_le

theorem foldl_heappush_hp (pushes : List Event) :
    ∀ acc, IsMinHeap acc → IsMinHeap (pushes.foldl heappush acc) := by
  induction pushes with
  | nil => intro acc h; exact h
  | cons a t ih =>
    intro acc h
    exact ih _ (heappush_hp acc a h)

/-- C6 counterexample: pushing four distinct events with equal times in id
order `0,1,2,3` pops them in order `0,2,1,3` — the heap is not stable, so
FIFO among ties fails (event 1 was pushed before event 2 yet pops later).
This refutes the claim as stated. -/
theorem c6_counterexample_fifo_ties : ¬ fifoClaim cexPushes := by decide

/-- C6 amended: for every sequence of pushes, successive pops do return
events in non-decreasing `time` order (the heap invariant is maintained
and each pop returns a minimum), but equal-time events are popped in an
order determined by the heap layout, not by insertion order. -/
theorem c6_amended_pops_sorted (pushes : List Event) :
    (popsOf pushes).Pairwise fun a b => a.time ≤ b.time := by
  unfold popsOf
  exact popAllFuel_sorted _ _ (foldl_heappush_hp pushes [] isMinHeap_nil)

/-! ### Engine lemmas (for C1, C8, C9, C10) -/

theorem histValuesSum_histAdd (h : List (ℕ × ℚ)) (k : ℕ) (d : ℚ) :
    histValuesSum (histAdd h k d) = histValuesSum h + d := by
  induction h with
  | nil => simp [histAdd, histValuesSum]
  | cons kv t ih =>
    obtain ⟨k0, v0⟩ := kv
    by_cases hk : k0 = k
    · simp only [histAdd, if_pos hk, histValuesSum, List.map_cons, List.sum_cons]
      ring
    · simp only [histAdd, if_neg hk, histValuesSum, List.map_cons, List.sum_cons] at ih ⊢
      rw [ih]
      ring

theorem histKeys_histAdd (h : List (ℕ × ℚ)) (k0 : ℕ) (d : ℚ) (k : ℕ) :
    k ∈ histKeys (histAdd h k0 d) ↔ k ∈ histKeys h ∨ k = k0 := by
  induction h with
  | nil => simp [histAdd, histKeys]
  | cons kv t ih =>
    obtain ⟨k1, v1⟩ := kv
    by_cases hk : k1 = k0
    · subst hk
      simp [histAdd, histKeys]
      tauto
    · simp [histAdd, hk, histKeys] at ih ⊢
      tauto

theorem handleArrival_state_history (draws : ℕ → ℚ) (p : EngineParams) (t : ℚ) (st : SimState) :
    (handleArrival draws p t st).state_history = st.state_history := by
  simp only [handleArrival, scheduleArrival, scheduleServiceEnd]
  split <;> (try split) <;> rfl

theorem handleArrival_visited (draws : ℕ → ℚ) (p : EngineParams) (t : ℚ) (st : SimState) :
    (handleArrival draws p t st).visited = st.visited := by
  simp only [handleArrival, scheduleArrival, scheduleServiceEnd]
  split <;> (try split) <;> rfl

theorem handleServiceEnd_state_history {t : ℚ} {cid : ℕ} {st st2 : SimState}
    (h : handleServiceEnd t cid st = some st2) : st2.state_history = st.state_history := by
  simp only [handleServiceEnd, scheduleServiceEnd] at h
  split at h
  · exact absurd h (by simp)
  · split at h <;>
      (simp only [Option.some_inj] at h; rw [← h])

theorem handleServiceEnd_visited {t : ℚ} {cid : ℕ} {st st2 : SimState}
    (h : handleServiceEnd t cid st = some st2) : st2.visited = st.visited := by
  simp only [handleServiceEnd, scheduleServiceEnd] at h
  split at h
  · exact absurd h (by simp)
  · split at h <;>
      (simp only [Option.some_inj] at h; rw [← h])

theorem dispatchEvent_state_history {draws : ℕ → ℚ} {p : EngineParams} {e : Event}
    {st st2 : SimState} (h : dispatchEvent draws p e st = some st2) :
    st2.state_history = st.state_history := by
  unfold dispatchEvent at h
  split at h
  · simp only [Option.some_inj] at h
    rw [← h]
    exact handleArrival_state_history draws p e.time st
  · exact handleServiceEnd_state_history h
  · exact absurd h (by simp)

theorem dispatchEvent_visited {draws : ℕ → ℚ} {p : EngineParams} {e : Event}
    {st st2 : SimState} (h : dispatchEvent draws p e st = some st2) :
    st2.visited = st.visited := by
  unfold dispatchEvent at h
  split at h
  · simp only [Option.some_inj] at h
    rw [← h]
    exact handleArrival_visited draws p e.time st
  · exact handleServiceEnd_visited h
  · exact absurd h (by simp)

theorem calcStatistics_state_history (p : EngineParams) (T : ℚ) (st : SimState) :
    (calcStatistics p T st).state_history = st.state_history := rfl

theorem calcStatistics_visited (p : EngineParams) (T : ℚ) (st : SimState) :
    (calcStatistics p T st).visited = st.visited := rfl

theorem calcStatistics_requests (p : EngineParams) (T : ℚ) (st : SimState) :
    (calcStatistics p T st).requests = st.requests := rfl

theorem calcStatistics_avg_wait (p : EngineParams) (T : ℚ) (st : SimState) :
    (calcStatistics p T st).avg_wait_time =
      (if (waitTimesOf st.requests).isEmpty then 0
       else (waitTimesOf st.requests).sum / (waitTimesOf st.requests).length) := rfl

theorem calcStatistics_avg_system (p : EngineParams) (T : ℚ) (st : SimState) :
    (calcStatistics p T st).avg_system_time =
      (if (systemTimesOf st.requests).isEmpty then 0
       else (systemTimesOf st.requests).sum / (systemTimesOf st.requests).length) := rfl

/-- Loop invariant for C1: the histogram's total equals the last recorded
event time, which never exceeds the horizon. -/
theorem runLoop_sum_inv (draws : ℕ → ℚ) (p : EngineParams) (T : ℚ) :
    ∀ (fuel : ℕ) (st : SimState) (lst : ℕ) (ltime : ℚ) (out : LoopOut),
      runLoop draws p T fuel st lst ltime = some out →
      histValuesSum st.state_history = ltime → ltime ≤ T →
      histValuesSum out.st.state_history = out.last_state_time ∧
      out.last_state_time ≤ T := by
  intro fuel
  induction fuel with
  | zero =>
    intro st lst ltime out h _ _
    exact absurd h (by simp [runLoop])
  | succ fuel ih =>
    intro st lst ltime out h hsum hle
    simp only [runLoop] at h
    split at h
    · simp only [Option.some_inj] at h
      rw [← h]
      exact ⟨hsum, hle⟩
    · rename_i e h2 hpop
      split at h
      · simp only [Option.some_inj] at h
        rw [← h]
        exact ⟨hsum, hle⟩
      · rename_i hnotlate
        split at h
        · exact absurd h (by simp)
        · rename_i st2 hdis
          refine ih _ _ _ _ h ?_ ?_
          · show histValuesSum st2.state_history = e.time
            rw [dispatchEvent_state_history hdis]
            show histValuesSum (histAdd st.state_history lst (e.time - ltime)) = e.time
            rw [histValuesSum_histAdd, hsum]
            ring
          · exact not_lt.mp hnotlate

/-- Loop invariant for C9: every histogram key is either a pre-initialized
level (`< B`) or a visited level; the tracked `last_state` is visited; the
pre-initialized levels stay present. -/
theorem runLoop_keys_inv (draws : ℕ → ℚ) (p : EngineParams) (T : ℚ) (B : ℕ) :
    ∀ (fuel : ℕ) (st : SimState) (lst : ℕ) (ltime : ℚ) (out : LoopOut),
      runLoop draws p T fuel st lst ltime = some out →
      (∀ k ∈ histKeys st.state_history, k < B ∨ k ∈ st.visited) →
      lst ∈ st.visited →
      (∀ s, s < B → s ∈ histKeys st.state_history) →
      (∀ k ∈ histKeys out.st.state_history, k < B ∨ k ∈ out.st.visited) ∧
      out.last_state ∈ out.st.visited ∧
      (∀ s, s < B → s ∈ histKeys out.st.state_history) := by
  intro fuel
  induction fuel with
  | zero =>
    intro st lst ltime out h _ _ _
    exact absurd h (by simp [runLoop])
  | succ fuel ih =>
    intro st lst ltime out h hkeys hlst hpre
    simp only [runLoop] at h
    split at h
    · simp only [Option.some_inj] at h
      rw [← h]
      exact ⟨hkeys, hlst, hpre⟩
    · rename_i e h2 hpop
      split at h
      · simp only [Option.some_inj] at h
        rw [← h]
        exact ⟨hkeys, hlst, hpre⟩
      · split at h
        · exact absurd h (by simp)
        · rename_i st2 hdis
          have hh := dispatchEvent_state_history hdis
          have hv := dispatchEvent_visited hdis
          refine ih _ _ _ _ h ?_ ?_ ?_
          · show ∀ k ∈ histKeys st2.state_history, k < B ∨ k ∈ st2.visited ++ [getState st2]
            intro k hk
            rw [hh] at hk
            have hk2 := (histKeys_histAdd st.state_history lst (e.time - ltime) k).mp hk
            rcases hk2 with hk2 | hk2
            · rcases hkeys k hk2 with hlt | hvis
              · exact Or.inl hlt
              · refine Or.inr (List.mem_append_left _ ?_)
                rw [hv]
                exact hvis
            · refine Or.inr (List.mem_append_left _ ?_)
              rw [hv, hk2]
              exact hlst
          · show getState st2 ∈ st2.visited ++ [getState st2]
            exact List.mem_append_right _ (List.mem_singleton_self _)
          · show ∀ s, s < B → s ∈ histKeys st2.state_history
            intro s hs
            rw [hh]
            exact (histKeys_histAdd _ _ _ s).mpr (Or.inl (hpre s hs))

theorem histValuesSum_init (L : List ℕ) :
    histValuesSum (L.map fun s => (s, (0 : ℚ))) = 0 := by
  induction L with
  | nil => simp [histValuesSum]
  | cons a t ih => simp [histValuesSum, List.map_cons] at ih ⊢; exact ih

theorem histKeys_init (L : List ℕ) :
    histKeys (L.map fun s => (s, (0 : ℚ))) = L := by
  induction L with
  | nil => rfl
  | cons a t ih => simp only [histKeys, List.map_cons] at ih ⊢; rw [ih]

/-- C1: for every completed realization with horizon `T > 0`, the
occupancy-time histogram sums to exactly `T`: the loop adds each
inter-event duration to the level held before the event, and the
post-loop step adds the remaining `T - last_state_time` to the last
level. -/
theorem c1_hist_sums_to_T (draws : ℕ → ℚ) (p : EngineParams) (T : ℚ) (fuel : ℕ)
    (res : EngineResult) (hT : 0 < T)
    (hrun : runRealization draws p T fuel = some res) :
    histValuesSum res.state_history = T := by
  simp only [runRealization] at hrun
  split at hrun
  · exact absurd hrun (by simp)
  · rename_i out hloop
    simp only [Option.some_inj] at hrun
    have hinit : histValuesSum
        ((List.range (p.n_channels + p.m_queue.getD 0 + 1)).map fun s => (s, (0 : ℚ))) = 0 :=
      histValuesSum_init _
    obtain ⟨hsum, hle⟩ :=
      runLoop_sum_inv draws p T fuel _ 0 0 out hloop hinit (le_of_lt hT)
    rw [← hrun, calcStatistics_state_history]
    by_cases hrem : 0 < T - out.last_state_time
    · rw [if_pos hrem]
      show histValuesSum
        (histAdd out.st.state_history out.last_state (T - out.last_state_time)) = T
      rw [histValuesSum_histAdd, hsum]
      ring
    · rw [if_neg hrem]
      rw [hsum]
      linarith [not_lt.mp hrem]

/-- C1 witness: the `drawsA` realization over horizon 20 accumulates the
histogram `{0: 5, 1: 6, 2: 9}`, which sums to 20. -/
theorem c1_witness :
    0 < (20 : ℚ) ∧ runA20 = some resA20 ∧ histValuesSum resA20.state_history = 20 := by
  have hrun : runRealization drawsA paramsA 20 10 = some resA20 := by
    norm_num [runA20, resA20, runRealization, runLoop, dispatchEvent, calcStatistics,
      handleArrival, handleServiceEnd, scheduleArrival, scheduleServiceEnd,
      getFreeChannelId, isQueueFull, getState, getBusyChannels, histAdd, histKeys,
      histValuesSum, probGet, waitTimesOf, systemTimesOf, heappush, heappop,
      siftdownAux, siftdownGo, siftupAux, siftupGo, dummyEvent, dummyRequest,
      Request.get_wait_time, Request.get_system_time, drawsA, paramsA]
  exact ⟨by norm_num, hrun,
    c1_hist_sums_to_T drawsA paramsA 20 10 resA20 (by norm_num) hrun⟩

/-- C8 amended: the reported mean wait is the arithmetic mean over the
non-rejected requests with *strictly positive* wait only (the code filters
`get_wait_time() > 0`), not over all non-rejected requests; it is 0 when
no request waited. -/
theorem c8_amended_mean_wait (draws : ℕ → ℚ) (p : EngineParams) (T : ℚ) (fuel : ℕ)
    (res : EngineResult) (hrun : runRealization draws p T fuel = some res) :
    res.avg_wait_time =
      (if (waitTimesOf res.requests).isEmpty then 0
       else (waitTimesOf res.requests).sum / (waitTimesOf res.requests).length) := by
  simp only [runRealization] at hrun
  split at hrun
  · exact absurd hrun (by simp)
  · simp only [Option.some_inj] at hrun
    rw [← hrun, calcStatistics_avg_wait, calcStatistics_requests]

/-- C8 counterexample: in the `drawsA` horizon-20 realization request 0 is
served immediately (wait 0) and request 1 waits 9; the code reports mean
wait 9 (the zero-wait request is dropped from numerator and denominator),
while the claim's mean over all non-rejected requests is 9/2. -/
theorem c8_counterexample_zero_waits_excluded :
    runA20 = some resA20 ∧
    resA20.avg_wait_time = 9 ∧
    specMeanWait resA20.requests = 9 / 2 ∧
    (9 : ℚ) ≠ 9 / 2 := by
  refine ⟨?_, ?_, ?_, by norm_num⟩ <;>
    norm_num [runA20, resA20, runRealization, runLoop, dispatchEvent, calcStatistics,
      handleArrival, handleServiceEnd, scheduleArrival, scheduleServiceEnd,
      getFreeChannelId, isQueueFull, getState, getBusyChannels, histAdd, histKeys,
      histValuesSum, probGet, waitTimesOf, systemTimesOf, heappush, heappop,
      siftdownAux, siftdownGo, siftupAux, siftupGo, dummyEvent, dummyRequest,
      Request.get_wait_time, Request.get_system_time, drawsA, paramsA, specMeanWait]

/-- C8 amended witness: the theorem at the `drawsA` horizon-20 run. -/
theorem c8_amended_witness :
    resA20.avg_wait_time =
      (if (waitTimesOf resA20.requests).isEmpty then 0
       else (waitTimesOf resA20.requests).sum / (waitTimesOf resA20.requests).length) :=
  c8_amended_mean_wait drawsA paramsA 20 10 resA20 (by
    norm_num [runA20, resA20, runRealization, runLoop, dispatchEvent, calcStatistics,
      handleArrival, handleServiceEnd, scheduleArrival, scheduleServiceEnd,
      getFreeChannelId, isQueueFull, getState, getBusyChannels, histAdd, histKeys,
      histValuesSum, probGet, waitTimesOf, systemTimesOf, heappush, heappop,
      siftdownAux, siftdownGo, siftupAux, siftupGo, dummyEvent, dummyRequest,
      Request.get_wait_time, Request.get_system_time, drawsA, paramsA])

/-- C9 amended: the pre-initialized levels `0 .. n_channels + (m_queue or 0)`
are always histogram keys (`QueueSystem.__post_init__` zeroes them), and
every key beyond that range is a level the realization actually held; so
keys are the pre-initialized range plus a subset of the visited levels,
not exactly the visited set. -/
theorem c9_amended_keys (draws : ℕ → ℚ) (p : EngineParams) (T : ℚ) (fuel : ℕ)
    (res : EngineResult) (hrun : runRealization draws p T fuel = some res) :
    (∀ s, s < p.n_channels + p.m_queue.getD 0 + 1 → s ∈ histKeys res.state_history) ∧
    (∀ k ∈ histKeys res.state_history,
      k < p.n_channels + p.m_queue.getD 0 + 1 ∨ k ∈ res.visited) := by
  simp only [runRealization] at hrun
  split at hrun
  · exact absurd hrun (by simp)
  · rename_i out hloop
    simp only [Option.some_inj] at hrun
    have hinit1 : ∀ k ∈ histKeys ((List.range (p.n_channels + p.m_queue.getD 0 + 1)).map
        fun s => (s, (0 : ℚ))), k < p.n_channels + p.m_queue.getD 0 + 1 ∨ k ∈ [0] := by
      intro k hk
      rw [histKeys_init] at hk
      exact Or.inl (List.mem_range.mp hk)
    have hinit3 : ∀ s, s < p.n_channels + p.m_queue.getD 0 + 1 →
        s ∈ histKeys ((List.range (p.n_channels + p.m_queue.getD 0 + 1)).map
          fun s => (s, (0 : ℚ))) := by
      intro s hs
      rw [histKeys_init]
      exact List.mem_range.mpr hs
    obtain ⟨hkeys, hlst, hpre⟩ :=
      runLoop_keys_inv draws p T (p.n_channels + p.m_queue.getD 0 + 1) fuel _ 0 0 out hloop
        hinit1 (List.mem_singleton_self 0) hinit3
    rw [← hrun, calcStatistics_state_history, calcStatistics_visited]
    by_cases hrem : 0 < T - out.last_state_time
    · rw [if_pos hrem]
      constructor
      · intro s hs
        show s ∈ histKeys (histAdd out.st.state_history out.last_state (T - out.last_state_time))
        exact (histKeys_histAdd _ _ _ s).mpr (Or.inl (hpre s hs))
      · intro k hk
        have hk2 := (histKeys_histAdd out.st.state_history out.last_state
          (T - out.last_state_time) k).mp hk
        rcases hk2 with hk2 | hk2
        · exact hkeys k hk2
        · rw [hk2]
          exact Or.inr hlst
    · rw [if_neg hrem]
      exact ⟨hpre, hkeys⟩

/-- C9 counterexample: with the first arrival beyond the horizon the
system only ever holds level 0, yet the histogram has keys `[0, 1]`
because `__post_init__` pre-initializes every level in
`range(n_channels + (m_queue or 0) + 1)`.  Key 1 belongs to a level that
was never held, refuting "keys are exactly the visited levels". -/
theorem c9_counterexample_unvisited_key :
    runB10 = some resB10 ∧
    histKeys resB10.state_history = [0, 1] ∧
    resB10.visited = [0] ∧
    (1 : ℕ) ∈ histKeys resB10.state_history ∧
    (1 : ℕ) ∉ resB10.visited := by
  refine ⟨?_, ?_, ?_, ?_, ?_⟩ <;>
    norm_num [runB10, resB10, runRealization, runLoop, dispatchEvent, calcStatistics,
      handleArrival, handleServiceEnd, scheduleArrival, scheduleServiceEnd,
      getFreeChannelId, isQueueFull, getState, getBusyChannels, histAdd, histKeys,
      histValuesSum, probGet, waitTimesOf, systemTimesOf, heappush, heappop,
      siftdownAux, siftdownGo, siftupAux, siftupGo, dummyEvent, dummyRequest,
      Request.get_wait_time, Request.get_system_time, paramsA]

/-- C9 amended witness: the theorem at the no-arrivals run. -/
theorem c9_amended_witness :
    (∀ s, s < paramsA.n_channels + paramsA.m_queue.getD 0 + 1 →
      s ∈ histKeys resB10.state_history) ∧
    (∀ k ∈ histKeys resB10.state_history,
      k < paramsA.n_channels + paramsA.m_queue.getD 0 + 1 ∨ k ∈ resB10.visited) :=
  c9_amended_keys (fun _ => 100) paramsA 10 5 resB10 (by
    norm_num [runB10, resB10, runRealization, runLoop, dispatchEvent, calcStatistics,
      handleArrival, handleServiceEnd, scheduleArrival, scheduleServiceEnd,
      getFreeChannelId, isQueueFull, getState, getBusyChannels, histAdd, histKeys,
      histValuesSum, probGet, waitTimesOf, systemTimesOf, heappush, heappop,
      siftdownAux, siftdownGo, siftupAux, siftupGo, dummyEvent, dummyRequest,
      Request.get_wait_time, Request.get_system_time, paramsA])

/-- C10: the mean system time averages `get_system_time` over ALL
non-rejected requests — a request whose service has not completed by the
horizon (`service_end_time` unset) contributes exactly 0 to the numerator
while still being counted in the denominator. -/
theorem c10_incomplete_contributes_zero (draws : ℕ → ℚ) (p : EngineParams) (T : ℚ)
    (fuel : ℕ) (res : EngineResult) (hrun : runRealization draws p T fuel = some res) :
    res.avg_system_time =
      (if (systemTimesOf res.requests).isEmpty then 0
       else (systemTimesOf res.requests).sum / (systemTimesOf res.requests).length) ∧
    (systemTimesOf res.requests).length =
      (res.requests.filter fun r => !r.was_rejected).length ∧
    ∀ r ∈ res.requests, r.service_end_time = none → r.get_system_time = 0 := by
  refine ⟨?_, ?_, ?_⟩
  · simp only [runRealization] at hrun
    split at hrun
    · exact absurd hrun (by simp)
    · simp only [Option.some_inj] at hrun
      rw [← hrun, calcStatistics_avg_system, calcStatistics_requests]
  · simp [systemTimesOf]
  · intro r _ hend
    simp [Request.get_system_time, hend]

/-- C10 witness: the theorem at the `drawsA` horizon-12 run, where
request 1 is still in service at the horizon (`service_end_time = none`),
contributes 0, and is counted: the mean is `(10 + 0) / 2 = 5`. -/
theorem c10_witness :
    runA12 = some resA12 ∧
    (resA12.avg_system_time =
      (if (systemTimesOf resA12.requests).isEmpty then 0
       else (systemTimesOf resA12.requests).sum / (systemTimesOf resA12.requests).length)) ∧
    (∀ r ∈ resA12.requests, r.service_end_time = none → r.get_system_time = 0) ∧
    resA12.avg_system_time = 5 := by
  have hrun : runRealization drawsA paramsA 12 10 = some resA12 := by
    norm_num [runA12, resA12, runRealization, runLoop, dispatchEvent, calcStatistics,
      handleArrival, handleServiceEnd, scheduleArrival, scheduleServiceEnd,
      getFreeChannelId, isQueueFull, getState, getBusyChannels, histAdd, histKeys,
      histValuesSum, probGet, waitTimesOf, systemTimesOf, heappush, heappop,
      siftdownAux, siftdownGo, siftupAux, siftupGo, dummyEvent, dummyRequest,
      Request.get_wait_time, Request.get_system_time, drawsA, paramsA]
  have h := c10_incomplete_contributes_zero drawsA paramsA 12 10 resA12 hrun
  refine ⟨hrun, h.1, h.2.2, ?_⟩
  norm_num [runA12, resA12, runRealization, runLoop, dispatchEvent, calcStatistics,
    handleArrival, handleServiceEnd, scheduleArrival, scheduleServiceEnd,
    getFreeChannelId, isQueueFull, getState, getBusyChannels, histAdd, histKeys,
    histValuesSum, probGet, waitTimesOf, systemTimesOf, heappush, heappop,
    siftdownAux, siftdownGo, siftupAux, siftupGo, dummyEvent, dummyRequest,
    Request.get_wait_time, Request.get_system_time, drawsA, paramsA]

end Lab8
